import Mathlib

/-!
# Verification of the audia transcription pipeline and retrieval engine

Shallow embedding, in Lean 4, of the core algorithmic components of the
`audia` backend (`apps/backend/app`), together with proofs of the spec's
claims about them:

* the ISO-8601-style duration parser `_parse_duration`
  (`services/azure_speech.py`),
* the diarization-result parser `parse_transcription_with_diarization`
  (`services/azure_speech.py`),
* the text chunker `chunk_text` (`services/embeddings.py`),
* the per-job vector index engine `create_index_for_job` / `search` /
  `update_index` / `index_exists` (`services/embeddings.py`),
* the transcription poller's retry wrappers around the remote Azure calls
  (`services/azure_speech.py`), and
* the job-status history written by `process_transcription_task`
  (`workers/tasks.py`).

Modeling conventions:

* Python floats are modeled as `ℚ` (the numeric values that appear in the
  claims here — hours/minutes/seconds arithmetic, similarity scores — are
  exact decimal computations; no claim in scope depends on binary-float
  rounding).
* Python exceptions are modeled as `Option`/`Except` results (`none` /
  `.error` means the call raised).
* Network collaborators (the Azure OpenAI embeddings client, the Azure
  Speech HTTP client) are modeled as oracle functions passed in as
  arguments; each attempt of a retried call consumes the next oracle value.
* Persisted per-job index state (a file pair on disk, keyed by job id) is
  modeled as a function `Store := String → Option FaissEntry` threaded
  explicitly through the engine operations.
-/

namespace Audia

/-! ## Duration codec: `_parse_duration` (azure_speech.py lines 340-361)

```python
if not duration_str or duration_str == "PT0S":
    return 0.0
pattern = r'PT(?:(\d+)H)?(?:(\d+)M)?(?:([\d.]+)S)?'
match = re.match(pattern, duration_str)
if not match:
    return 0.0
hours = int(match.group(1) or 0)
minutes = int(match.group(2) or 0)
seconds = float(match.group(3) or 0)
return hours * 3600 + minutes * 60 + seconds
```

The regex is anchored at the start (`re.match`) and each optional group is
a character run followed by a fixed terminator letter.  Because the run
characters (`\d`, resp. `[\d.]`) can never equal the terminator letter
(`H`/`M`/`S`), greedy matching with backtracking is equivalent to: take the
maximal run, then check that the next character is the terminator;
otherwise the group matches empty and consumes nothing.  `grabGroup` below
implements exactly that.  `float(s)` on a string drawn from `[\d.]+` raises
`ValueError` unless the string has at most one `'.'` and at least one
digit; `pyFloat` returns `none` in exactly the raising cases.
-/

/-- Decimal value of a list of ASCII digit characters, most significant
first (mirrors Python `int` on a digit string; `digitsVal [] = 0` mirrors
`int(match.group(i) or 0)` for an absent group). -/
def digitsVal (cs : List Char) : ℕ :=
  cs.foldl (fun a c => 10 * a + (c.toNat - 48)) 0

/-- One optional regex group `(?:(run)t)?` where `run` is a maximal
nonempty run of characters satisfying `p` and `t` is a terminator letter
with `p t = false`.  Returns the captured run (or `none`) and the
remaining input. -/
def grabGroup (p : Char → Bool) (t : Char) (cs : List Char) :
    Option (List Char) × List Char :=
  match cs.takeWhile p, cs.dropWhile p with
  | [], _ => (none, cs)
  | run, c :: rest => if c = t then (some run, rest) else (none, cs)
  | _, [] => (none, cs)

/-- Python `float(s)` for `s` drawn from the alphabet `[0-9.]` (which is
all `re` can hand the seconds group): defined iff `s` has at most one dot
and at least one digit; `none` models the `ValueError` raise. -/
def pyFloat (cs : List Char) : Option ℚ :=
  if cs.count '.' ≤ 1 ∧ cs.any Char.isDigit then
    let ip := cs.takeWhile (fun c => c ≠ '.')
    let fp := (cs.dropWhile (fun c => c ≠ '.')).drop 1
    some ((digitsVal ip : ℚ) + (digitsVal fp : ℚ) / (10 : ℚ) ^ fp.length)
  else none

/-- Character class `[\d.]` of the seconds group. -/
def isSecChar (c : Char) : Bool := c.isDigit || c = '.'

/-- The three optional groups of the regex, applied after the literal
`PT` prefix, followed by the `hours*3600 + minutes*60 + seconds`
computation.  `none` models the `float` `ValueError` raise. -/
def parseGroupsL (body : List Char) : Option ℚ :=
  let gh := grabGroup Char.isDigit 'H' body
  let gm := grabGroup Char.isDigit 'M' gh.2
  let gs := grabGroup isSecChar 'S' gm.2
  let hours : ℕ := digitsVal (gh.1.getD [])
  let minutes : ℕ := digitsVal (gm.1.getD [])
  match gs.1 with
  | none => some ((3600 * hours + 60 * minutes : ℕ) : ℚ)
  | some run =>
    match pyFloat run with
    | none => none
    | some secs => some (((3600 * hours + 60 * minutes : ℕ) : ℚ) + secs)

/-- The anchored `re.match`: the pattern matches (possibly emptily) iff
the input starts with the literal `PT`; a failed match returns `0.0`. -/
def parseDurationTail : List Char → Option ℚ
  | c1 :: c2 :: rest => if c1 = 'P' ∧ c2 = 'T' then parseGroupsL rest else some 0
  | [] => some 0
  | [_] => some 0

/-- `_parse_duration` on the underlying character list.  `none` models a
raised `ValueError` (which the Python code does not catch). -/
def parseDurationL (cs : List Char) : Option ℚ :=
  if cs = [] ∨ cs = ['P', 'T', '0', 'S'] then some 0
  else parseDurationTail cs

/-- `AzureSpeechService._parse_duration`.  `none` models a raise. -/
def parse_duration (s : String) : Option ℚ := parseDurationL s.data

/-! ### Renderings of valid duration strings

To state the spec's property "for all valid duration strings
`PT{h}H{m}M{s}S` (any subset of components present) the parser returns
`3600h + 60m + s`" we render such strings from the numbers themselves,
and compute the expected value of the seconds decimal independently of
the parser. -/

/-- A decimal digit as a character. -/
def renderDigit : Fin 10 → Char
  | 0 => '0' | 1 => '1' | 2 => '2' | 3 => '3' | 4 => '4'
  | 5 => '5' | 6 => '6' | 7 => '7' | 8 => '8' | 9 => '9'

/-- Last decimal digit of a natural number, as a character. -/
def natDigit (n : ℕ) : Char := renderDigit ⟨n % 10, Nat.mod_lt _ (by norm_num)⟩

/-- Decimal rendering of a natural number (no leading zeros except for 0). -/
def renderNat (n : ℕ) : List Char :=
  if _h : n < 10 then [natDigit n] else renderNat (n / 10) ++ [natDigit n]
  decreasing_by exact Nat.div_lt_self (by omega) (by omega)

/-- Fractional digit string of a decimal. -/
def renderFrac (fs : List (Fin 10)) : List Char := fs.map renderDigit

/-- Value of a fractional digit string, e.g. `fracVal [2,5] = 25/100`. -/
def fracVal (fs : List (Fin 10)) : ℚ :=
  ((fs.foldl (fun a d => 10 * a + d.val) 0 : ℕ) : ℚ) / (10 : ℚ) ^ fs.length

/-- A non-negative decimal literal: integer part, optional fraction digits
(`(5, none) ↦ "5"`, `(5, some []) ↦ "5."`, `(0, some [5]) ↦ "0.5"`). -/
def renderSec : ℕ × Option (List (Fin 10)) → List Char
  | (a, none) => renderNat a
  | (a, some fs) => renderNat a ++ '.' :: renderFrac fs

/-- Value of a non-negative decimal literal. -/
def secVal : ℕ × Option (List (Fin 10)) → ℚ
  | (a, none) => (a : ℚ)
  | (a, some fs) => (a : ℚ) + fracVal fs

/-- The part of a valid duration string after the `PT` prefix. -/
def durBody (oh om : Option ℕ) (os : Option (ℕ × Option (List (Fin 10)))) :
    List Char :=
  (oh.elim [] fun h => renderNat h ++ ['H']) ++
    (om.elim [] fun m => renderNat m ++ ['M']) ++
    (os.elim [] fun s => renderSec s ++ ['S'])

/-- A valid duration string `PT{h}H{m}M{s}S` with any subset of the three
components present. -/
def renderDuration (oh om : Option ℕ) (os : Option (ℕ × Option (List (Fin 10)))) :
    String :=
  ⟨'P' :: 'T' :: durBody oh om os⟩

/-- The value the spec assigns to a rendered duration: `3600h + 60m + s`
with absent components counting as zero. -/
def durationVal (oh om : Option ℕ) (os : Option (ℕ × Option (List (Fin 10)))) : ℚ :=
  3600 * (oh.getD 0 : ℕ) + 60 * (om.getD 0 : ℕ) + os.elim 0 secVal

/-! ### Digit and span lemmas -/

theorem renderDigit_isDigit (d : Fin 10) : (renderDigit d).isDigit = true := by
  fin_cases d <;> decide

theorem renderDigit_toNat (d : Fin 10) : (renderDigit d).toNat - 48 = d.val := by
  fin_cases d <;> decide

theorem renderDigit_ne_dot (d : Fin 10) : renderDigit d ≠ '.' := by
  fin_cases d <;> decide

theorem natDigit_isDigit (n : ℕ) : (natDigit n).isDigit = true :=
  renderDigit_isDigit _

theorem natDigit_toNat (n : ℕ) : (natDigit n).toNat - 48 = n % 10 :=
  renderDigit_toNat _

theorem renderNat_ne_nil (n : ℕ) : renderNat n ≠ [] := by
  rw [renderNat]
  split <;> simp

theorem renderNat_isDigit (n : ℕ) : ∀ c ∈ renderNat n, c.isDigit = true := by
  induction n using Nat.strong_induction_on with
  | _ n ih =>
    rw [renderNat]
    split
    next h => simp [natDigit_isDigit]
    next h =>
      intro c hc
      rcases List.mem_append.1 hc with hc | hc
      · exact ih (n / 10) (Nat.div_lt_self (by omega) (by omega)) c hc
      · simp at hc
        simp [hc, natDigit_isDigit]

/-- Running `digitsVal`'s fold from an arbitrary accumulator. -/
theorem digitsVal_foldl (cs : List Char) (i : ℕ) :
    cs.foldl (fun a c => 10 * a + (c.toNat - 48)) i =
      i * 10 ^ cs.length + digitsVal cs := by
  induction cs generalizing i with
  | nil => simp [digitsVal]
  | cons c cs ih =>
    have h1 : digitsVal (c :: cs) = (c.toNat - 48) * 10 ^ cs.length + digitsVal cs := by
      have h2 := ih (c.toNat - 48)
      simpa [digitsVal] using h2
    rw [List.foldl_cons, ih, h1, List.length_cons]
    ring

theorem digitsVal_append (a b : List Char) :
    digitsVal (a ++ b) = digitsVal a * 10 ^ b.length + digitsVal b := by
  unfold digitsVal
  rw [List.foldl_append]
  exact digitsVal_foldl b _

theorem digitsVal_renderNat (n : ℕ) : digitsVal (renderNat n) = n := by
  induction n using Nat.strong_induction_on with
  | _ n ih =>
    rw [renderNat]
    split
    next h => simp [digitsVal, natDigit_toNat, Nat.mod_eq_of_lt h]
    next h =>
      rw [digitsVal_append, ih (n / 10) (Nat.div_lt_self (by omega) (by omega))]
      simp [digitsVal, natDigit_toNat]
      omega

theorem takeWhile_append_cons {p : Char → Bool} {l1 l2 : List Char} {t : Char}
    (h1 : ∀ c ∈ l1, p c = true) (ht : p t = false) :
    (l1 ++ t :: l2).takeWhile p = l1 := by
  induction l1 with
  | nil => simp [List.takeWhile_cons, ht]
  | cons a l ih =>
    have ha : p a = true := h1 a (List.mem_cons_self a l)
    simp only [List.cons_append, List.takeWhile_cons, ha, if_true]
    rw [ih fun c hc => h1 c (List.mem_cons_of_mem a hc)]

theorem dropWhile_append_cons {p : Char → Bool} {l1 l2 : List Char} {t : Char}
    (h1 : ∀ c ∈ l1, p c = true) (ht : p t = false) :
    (l1 ++ t :: l2).dropWhile p = t :: l2 := by
  induction l1 with
  | nil => simp [List.dropWhile_cons, ht]
  | cons a l ih =>
    have ha : p a = true := h1 a (List.mem_cons_self a l)
    simp only [List.cons_append, List.dropWhile_cons, ha, if_true]
    exact ih fun c hc => h1 c (List.mem_cons_of_mem a hc)

theorem grabGroup_nil (p : Char → Bool) (t : Char) : grabGroup p t [] = (none, []) :=
  rfl

/-- The group matches: a nonempty maximal run followed by the terminator. -/
theorem grabGroup_hit {p : Char → Bool} {t : Char} {run rest : List Char}
    (hrun : ∀ c ∈ run, p c = true) (hne : run ≠ []) (hterm : p t = false) :
    grabGroup p t (run ++ t :: rest) = (some run, rest) := by
  unfold grabGroup
  rw [takeWhile_append_cons hrun hterm, dropWhile_append_cons hrun hterm]
  cases run with
  | nil => exact absurd rfl hne
  | cons a l => simp

/-- The group fails: the character after the (possibly empty) maximal run
is not the terminator, so the group consumes nothing. -/
theorem grabGroup_wrongTerm {p : Char → Bool} {term t : Char} {run rest : List Char}
    (hrun : ∀ c ∈ run, p c = true) (hterm : p t = false) (hne : t ≠ term) :
    grabGroup p term (run ++ t :: rest) = (none, run ++ t :: rest) := by
  unfold grabGroup
  rw [takeWhile_append_cons hrun hterm, dropWhile_append_cons hrun hterm]
  cases run with
  | nil => simp
  | cons a l => simp [hne]

/-! ### `pyFloat` on rendered decimals -/

theorem renderFrac_isDigit (fs : List (Fin 10)) :
    ∀ c ∈ renderFrac fs, c.isDigit = true := by
  intro c hc
  rcases List.mem_map.1 hc with ⟨d, _, rfl⟩
  exact renderDigit_isDigit d

theorem digitsVal_renderFrac (fs : List (Fin 10)) :
    digitsVal (renderFrac fs) = fs.foldl (fun a d => 10 * a + d.val) 0 := by
  unfold digitsVal renderFrac
  rw [List.foldl_map]
  congr 1
  funext a d
  rw [renderDigit_toNat]

theorem count_dot_of_digits {cs : List Char} (h : ∀ c ∈ cs, c.isDigit = true) :
    cs.count '.' = 0 := by
  rw [List.count_eq_zero]
  intro hmem
  have := h '.' hmem
  simp [Char.isDigit] at this

theorem no_dot_of_digits {cs : List Char} (h : ∀ c ∈ cs, c.isDigit = true) :
    ∀ c ∈ cs, (decide (c ≠ '.')) = true := by
  intro c hc
  have hd := h c hc
  simp only [decide_eq_true_eq]
  intro hcc
  rw [hcc] at hd
  simp [Char.isDigit] at hd

/-- `float` on a pure digit string. -/
theorem pyFloat_digits {cs : List Char} (hne : cs ≠ []) (h : ∀ c ∈ cs, c.isDigit = true) :
    pyFloat cs = some (digitsVal cs) := by
  unfold pyFloat
  have hdot : cs.count '.' = 0 := count_dot_of_digits h
  have hany : cs.any Char.isDigit = true := by
    cases cs with
    | nil => exact absurd rfl hne
    | cons c cs' => simp [List.any_cons, h c (List.mem_cons_self _ _)]
  rw [if_pos ⟨by omega, hany⟩]
  have htake : cs.takeWhile (fun c => decide (c ≠ '.')) = cs :=
    List.takeWhile_eq_self_iff.2 (no_dot_of_digits h)
  have hdrop : cs.dropWhile (fun c => decide (c ≠ '.')) = [] :=
    List.dropWhile_eq_nil_iff.2 (no_dot_of_digits h)
  rw [htake, hdrop]
  simp [digitsVal]

/-- `float` on a rendered decimal with a fraction part. -/
theorem pyFloat_dec (a : ℕ) (fs : List (Fin 10)) :
    pyFloat (renderNat a ++ '.' :: renderFrac fs) = some ((a : ℚ) + fracVal fs) := by
  unfold pyFloat
  have hdotn : (renderNat a).count '.' = 0 := count_dot_of_digits (renderNat_isDigit a)
  have hdotf : (renderFrac fs).count '.' = 0 := count_dot_of_digits (renderFrac_isDigit fs)
  have hcount : (renderNat a ++ '.' :: renderFrac fs).count '.' = 1 := by
    rw [List.count_append, List.count_cons]
    simp [hdotn, hdotf]
  have hany : (renderNat a ++ '.' :: renderFrac fs).any Char.isDigit = true := by
    rcases List.exists_cons_of_ne_nil (renderNat_ne_nil a) with ⟨c, t, hct⟩
    rw [hct]
    simp [List.any_cons]
    left
    exact renderNat_isDigit a c (by rw [hct]; exact List.mem_cons_self _ _)
  rw [if_pos ⟨by omega, hany⟩]
  have htake : (renderNat a ++ '.' :: renderFrac fs).takeWhile
      (fun c => decide (c ≠ '.')) = renderNat a :=
    takeWhile_append_cons (no_dot_of_digits (renderNat_isDigit a)) (by simp)
  have hdrop : (renderNat a ++ '.' :: renderFrac fs).dropWhile
      (fun c => decide (c ≠ '.')) = '.' :: renderFrac fs :=
    dropWhile_append_cons (no_dot_of_digits (renderNat_isDigit a)) (by simp)
  rw [htake, hdrop]
  simp only [List.drop_succ_cons, List.drop_zero, digitsVal_renderNat]
  rw [digitsVal_renderFrac]
  unfold fracVal
  rw [show (renderFrac fs).length = fs.length from List.length_map _ _]

/-! ### The regex groups on rendered duration strings -/

theorem renderNat_isSecChar (n : ℕ) : ∀ c ∈ renderNat n, isSecChar c = true := by
  intro c hc
  simp [isSecChar, renderNat_isDigit n c hc]

theorem renderSecS_isSecChar (s : ℕ × Option (List (Fin 10))) :
    ∀ c ∈ renderSec s, isSecChar c = true := by
  rcases s with ⟨a, _ | fs⟩
  · exact renderNat_isSecChar a
  · intro c hc
    simp only [renderSec] at hc
    rcases List.mem_append.1 hc with hc | hc
    · exact renderNat_isSecChar a c hc
    · rcases List.mem_cons.1 hc with rfl | hc
      · simp [isSecChar]
      · simp [isSecChar, renderFrac_isDigit fs c hc]

theorem renderSec_ne_nil (s : ℕ × Option (List (Fin 10))) : renderSec s ≠ [] := by
  rcases s with ⟨a, _ | fs⟩
  · exact renderNat_ne_nil a
  · simp [renderSec, renderNat_ne_nil a]

/-- The seconds group on the rendered seconds part. -/
theorem grabS_spec (os : Option (ℕ × Option (List (Fin 10)))) :
    grabGroup isSecChar 'S' (os.elim [] fun s => renderSec s ++ ['S']) =
      (os.map renderSec, []) := by
  rcases os with _ | s
  · rfl
  · exact grabGroup_hit (renderSecS_isSecChar s) (renderSec_ne_nil s) (by decide)

/-- The minutes group on the rendered minutes-then-seconds part. -/
theorem grabM_spec (om : Option ℕ) (os : Option (ℕ × Option (List (Fin 10)))) :
    grabGroup Char.isDigit 'M'
        ((om.elim [] fun m => renderNat m ++ ['M']) ++
          (os.elim [] fun s => renderSec s ++ ['S'])) =
      (om.map renderNat, os.elim [] fun s => renderSec s ++ ['S']) := by
  rcases om with _ | m
  · simp only [Option.elim, List.nil_append, Option.map_none']
    rcases os with _ | ⟨a, _ | fs⟩
    · rfl
    · exact grabGroup_wrongTerm (renderNat_isDigit a) (by decide) (by decide)
    · show grabGroup Char.isDigit 'M' (renderSec (a, some fs) ++ ['S']) =
        (none, renderSec (a, some fs) ++ ['S'])
      have hsh : renderSec (a, some fs) ++ ['S'] =
          renderNat a ++ '.' :: (renderFrac fs ++ ['S']) := by
        simp [renderSec]
      rw [hsh]
      exact grabGroup_wrongTerm (renderNat_isDigit a)
        (show ('.' : Char).isDigit = false by decide) (by decide)
  · show grabGroup Char.isDigit 'M'
        ((renderNat m ++ ['M']) ++ (os.elim [] fun s => renderSec s ++ ['S'])) =
      (some (renderNat m), os.elim [] fun s => renderSec s ++ ['S'])
    have hsh : (renderNat m ++ ['M']) ++ (os.elim [] fun s => renderSec s ++ ['S']) =
        renderNat m ++ 'M' :: (os.elim [] fun s => renderSec s ++ ['S']) := by
      simp
    rw [hsh]
    exact grabGroup_hit (renderNat_isDigit m) (renderNat_ne_nil m)
      (show ('M' : Char).isDigit = false by decide)

/-- The hours group on the whole rendered body. -/
theorem grabH_spec (oh om : Option ℕ) (os : Option (ℕ × Option (List (Fin 10)))) :
    grabGroup Char.isDigit 'H' (durBody oh om os) =
      (oh.map renderNat,
        (om.elim [] fun m => renderNat m ++ ['M']) ++
          (os.elim [] fun s => renderSec s ++ ['S'])) := by
  rcases oh with _ | h
  · simp only [durBody, Option.elim, List.nil_append, Option.map_none']
    rcases om with _ | m
    · simp only [Option.elim, List.nil_append]
      rcases os with _ | ⟨a, _ | fs⟩
      · rfl
      · exact grabGroup_wrongTerm (renderNat_isDigit a) (by decide) (by decide)
      · show grabGroup Char.isDigit 'H' (renderSec (a, some fs) ++ ['S']) =
          (none, renderSec (a, some fs) ++ ['S'])
        have hsh : renderSec (a, some fs) ++ ['S'] =
            renderNat a ++ '.' :: (renderFrac fs ++ ['S']) := by
          simp [renderSec]
        rw [hsh]
        exact grabGroup_wrongTerm (renderNat_isDigit a)
          (show ('.' : Char).isDigit = false by decide) (by decide)
    · show grabGroup Char.isDigit 'H'
          ((renderNat m ++ ['M']) ++ (os.elim [] fun s => renderSec s ++ ['S'])) =
        (none, (renderNat m ++ ['M']) ++ (os.elim [] fun s => renderSec s ++ ['S']))
      have hsh : (renderNat m ++ ['M']) ++ (os.elim [] fun s => renderSec s ++ ['S']) =
          renderNat m ++ 'M' :: (os.elim [] fun s => renderSec s ++ ['S']) := by
        simp
      rw [hsh]
      exact grabGroup_wrongTerm (renderNat_isDigit m)
        (show ('M' : Char).isDigit = false by decide) (by decide)
  · have hsh : durBody (some h) om os =
        renderNat h ++ 'H' :: ((om.elim [] fun m => renderNat m ++ ['M']) ++
          (os.elim [] fun s => renderSec s ++ ['S'])) := by
      simp [durBody]
    rw [hsh]
    exact grabGroup_hit (renderNat_isDigit h) (renderNat_ne_nil h) (by decide)

theorem digitsVal_optRender (o : Option ℕ) :
    digitsVal ((o.map renderNat).getD []) = o.getD 0 := by
  cases o with
  | none => simp [digitsVal]
  | some v => simpa using digitsVal_renderNat v

/-- Inversion: the only rendered duration string that collides with the
special-cased literal `"PT0S"` is the rendering of `s = 0` alone. -/
theorem durBody_inv {oh om : Option ℕ} {os : Option (ℕ × Option (List (Fin 10)))}
    (h : durBody oh om os = ['0', 'S']) :
    oh = none ∧ om = none ∧ os = some (0, none) := by
  rcases oh with _ | h0
  · rcases om with _ | m0
    · rcases os with _ | ⟨a, _ | fs⟩
      · simp [durBody] at h
      · simp only [durBody, Option.elim, List.nil_append] at h
        have h2 : renderNat a = ['0'] := by
          have h3 : renderNat a ++ ['S'] = ['0'] ++ ['S'] := by simpa [renderSec] using h
          exact List.append_cancel_right h3
        have ha : a = 0 := by
          have h4 := digitsVal_renderNat a
          rw [h2] at h4
          simpa [digitsVal] using h4.symm
        simp [ha]
      · exfalso
        have hmem : '.' ∈ (['0', 'S'] : List Char) := by
          rw [← h]
          simp [durBody, renderSec]
        simp at hmem
    · exfalso
      have hmem : 'M' ∈ (['0', 'S'] : List Char) := by
        rw [← h]
        simp [durBody]
      simp at hmem
  · exfalso
    have hmem : 'H' ∈ (['0', 'S'] : List Char) := by
      rw [← h]
      simp [durBody]
    simp at hmem

theorem parseDurationL_PT (body : List Char)
    (h : ¬('P' :: 'T' :: body = [] ∨ 'P' :: 'T' :: body = ['P', 'T', '0', 'S'])) :
    parseDurationL ('P' :: 'T' :: body) = parseGroupsL body := by
  unfold parseDurationL
  rw [if_neg h]
  show (if 'P' = 'P' ∧ 'T' = 'T' then parseGroupsL body else some 0) = parseGroupsL body
  rw [if_pos ⟨rfl, rfl⟩]

/-- `C7`: for every duration string of the form `PT{h}H{m}M{s}S` with any
subset of the hour/minute/second components present (`h`, `m` non-negative
integers, `s` a non-negative decimal), `_parse_duration` returns
`3600*h + 60*m + s`; and `_parse_duration "PT0S" = 0` and the empty string
parses to `0`. -/
theorem C7_parse_duration_valid_forms (oh om : Option ℕ)
    (os : Option (ℕ × Option (List (Fin 10)))) :
    parse_duration (renderDuration oh om os) = some (durationVal oh om os) ∧
      parse_duration "PT0S" = some 0 ∧ parse_duration "" = some 0 := by
  refine ⟨?_, by decide, by decide⟩
  show parseDurationL ('P' :: 'T' :: durBody oh om os) = some (durationVal oh om os)
  by_cases hPT : durBody oh om os = ['0', 'S']
  · obtain ⟨h1, h2, h3⟩ := durBody_inv hPT
    subst h1; subst h2; subst h3
    rw [hPT]
    show parseDurationL ['P', 'T', '0', 'S'] = _
    rw [show parseDurationL ['P', 'T', '0', 'S'] = some 0 from by decide]
    simp [durationVal, secVal]
  · rw [parseDurationL_PT _ (by simp [hPT])]
    unfold parseGroupsL
    simp only [grabH_spec, grabM_spec, grabS_spec, digitsVal_optRender]
    rcases os with _ | ⟨a, ofr⟩
    · simp only [Option.map_none']
      show some _ = some (durationVal oh om none)
      unfold durationVal
      simp only [Option.elim]
      push_cast
      ring_nf
    · rcases ofr with _ | fs
      · simp only [Option.map_some']
        show (match pyFloat (renderSec (a, none)) with
          | none => none
          | some secs =>
            some (((3600 * (oh.getD 0) + 60 * (om.getD 0) : ℕ) : ℚ) + secs)) = _
        rw [show renderSec (a, none) = renderNat a from rfl,
          pyFloat_digits (renderNat_ne_nil a) (renderNat_isDigit a),
          digitsVal_renderNat]
        unfold durationVal
        simp only [Option.elim, secVal, Option.some_bind, Option.bind_eq_bind]
        push_cast
        ring_nf
      · simp only [Option.map_some']
        show (match pyFloat (renderSec (a, some fs)) with
          | none => none
          | some secs =>
            some (((3600 * (oh.getD 0) + 60 * (om.getD 0) : ℕ) : ℚ) + secs)) = _
        rw [show renderSec (a, some fs) = renderNat a ++ '.' :: renderFrac fs from rfl,
          pyFloat_dec]
        unfold durationVal
        simp only [Option.elim, secVal]
        push_cast
        ring_nf

/-- `C6` counterexample: on input `"PT.S"` the regex matches with seconds
group `"."`, and `float(".")` raises `ValueError`, so `_parse_duration`
raises instead of returning `0.0`. -/
theorem C6_counterexample_parse_duration_raises : parse_duration "PT.S" = none := by
  decide

/-- The seconds group (`([\d.]+)` before `S`) that the regex captures from
an input, if any: the same three-group pipeline as `parseGroupsL`. -/
def secondsRun : List Char → Option (List Char)
  | c1 :: c2 :: rest =>
    if c1 = 'P' ∧ c2 = 'T' then
      (grabGroup isSecChar 'S'
        (grabGroup Char.isDigit 'M' (grabGroup Char.isDigit 'H' rest).2).2).1
    else none
  | [] => none
  | [_] => none

/-- `C6` amended: `_parse_duration` raises exactly on those inputs whose
captured seconds group is not a valid `float` literal (no digit, or more
than one dot); every other input returns a value, and in particular any
input that does not even start with `PT` returns `0.0`. -/
theorem C6_parse_duration_raises_iff_bad_seconds (s : String) :
    (parse_duration s = none ↔
      (¬(s.data = [] ∨ s.data = ['P', 'T', '0', 'S']) ∧
        ∃ run, secondsRun s.data = some run ∧ pyFloat run = none)) ∧
      (∀ c1 c2 rest, s.data = c1 :: c2 :: rest → ¬(c1 = 'P' ∧ c2 = 'T') →
        parse_duration s = some 0) := by
  have hp : parse_duration s = parseDurationL s.data := rfl
  rcases hd : s.data with _ | ⟨c1, _ | ⟨c2, rest⟩⟩ <;> rw [hp, hd] <;>
    unfold parseDurationL
  · simp [secondsRun]
  · constructor
    · rw [if_neg (by simp)]
      show some 0 = none ↔ _
      simp [secondsRun]
    · intro a b r habr
      simp at habr
  · by_cases hPT0S : c1 :: c2 :: rest = ['P', 'T', '0', 'S']
    · rw [if_pos (Or.inr hPT0S)]
      constructor
      · simp [hPT0S]
      · intro _ _ _ _ _
        rfl
    · rw [if_neg (by simp [hPT0S])]
      by_cases hpt : c1 = 'P' ∧ c2 = 'T'
      · constructor
        · show (if c1 = 'P' ∧ c2 = 'T' then parseGroupsL rest else some 0) = none ↔ _
          rw [if_pos hpt]
          have hsr : secondsRun (c1 :: c2 :: rest) =
              (grabGroup isSecChar 'S' (grabGroup Char.isDigit 'M'
                (grabGroup Char.isDigit 'H' rest).2).2).1 := by
            show (if c1 = 'P' ∧ c2 = 'T' then _ else none) = _
            rw [if_pos hpt]
          rw [hsr]
          simp only [parseGroupsL]
          cases hgs : (grabGroup isSecChar 'S'
              (grabGroup Char.isDigit 'M' (grabGroup Char.isDigit 'H' rest).2).2).1 with
          | none => simp
          | some run =>
            cases hpf : pyFloat run with
            | none => simp [hpf, hPT0S]
            | some q => simp [hpf]
        · intro a b r habr hnab
          injection habr with ha hrest
          injection hrest with hb _
          exact absurd ⟨ha ▸ hpt.1, hb ▸ hpt.2⟩ hnab
      · constructor
        · show (if c1 = 'P' ∧ c2 = 'T' then parseGroupsL rest else some 0) = none ↔ _
          rw [if_neg hpt]
          have hsr : secondsRun (c1 :: c2 :: rest) = none := by
            show (if c1 = 'P' ∧ c2 = 'T' then _ else none) = none
            rw [if_neg hpt]
          rw [hsr]
          simp
        · intro _ _ _ _ _
          show (if c1 = 'P' ∧ c2 = 'T' then parseGroupsL rest else some 0) = some 0
          rw [if_neg hpt]

/-- `C6` witness: a concrete unparseable input on which the amended
statement yields the tolerant `0.0` result. -/
theorem C6_witness_garbage_input : parse_duration "xyz" = some 0 :=
  (C6_parse_duration_raises_iff_bad_seconds "xyz").2 'x' 'y' ['z'] rfl (by decide)

/-! ## Diarization parser: `parse_transcription_with_diarization`
(azure_speech.py lines 264-338)

The raw Azure result is modeled structurally: each `dict.get(key, default)`
of the Python code becomes `Option.getD`.  Fields the parser never reads
are omitted.  `none` as the overall result models a raised exception
(`_parse_duration` is called on the top-level duration and on each
phrase's offset/duration *before* the `nBest` emptiness check, and may
raise, see `C6`). -/

structure NBestEntry where
  display : Option String
  confidence : Option ℚ
  deriving DecidableEq

structure RawPhrase where
  speaker : Option ℤ
  offset : Option String
  duration : Option String
  nBest : Option (List NBestEntry)
  deriving DecidableEq

structure CombinedPhrase where
  display : Option String
  deriving DecidableEq

structure RawResult where
  combinedRecognizedPhrases : Option (List CombinedPhrase)
  duration : Option String
  recognizedPhrases : Option (List RawPhrase)
  deriving DecidableEq

structure Phrase where
  speaker : ℤ
  text : String
  startTime : ℚ
  endTime : ℚ
  duration : ℚ
  confidence : ℚ
  deriving DecidableEq

structure SpeakerAgg where
  speakerId : ℤ
  texts : List String
  deriving DecidableEq

structure ParsedResult where
  fullText : String
  speakers : List SpeakerAgg
  durationSeconds : ℚ
  phrases : List Phrase
  deriving DecidableEq

/-- The per-speaker aggregation step: find the first aggregate entry with
this speaker id and append the text to it, or create a new entry at the
end of the list on first sighting (mirrors the `next(...)` lookup plus
`result["speakers"].append`). -/
def addSpeakerText : List SpeakerAgg → ℤ → String → List SpeakerAgg
  | [], s, t => [{ speakerId := s, texts := [t] }]
  | a :: rest, s, t =>
    if a.speakerId = s then { a with texts := a.texts ++ [t] } :: rest
    else a :: addSpeakerText rest s t

/-- One iteration of the `for phrase in recognized_phrases` loop. -/
def processPhrase (acc : ParsedResult) (p : RawPhrase) : Option ParsedResult := do
  let speaker := p.speaker.getD 0
  let offset ← parse_duration (p.offset.getD "PT0S")
  let dur ← parse_duration (p.duration.getD "PT0S")
  match p.nBest.getD [] with
  | [] => some acc
  | best :: _ =>
    let text := best.display.getD ""
    let ph : Phrase :=
      { speaker := speaker, text := text, startTime := offset,
        endTime := offset + dur, duration := dur,
        confidence := best.confidence.getD 0 }
    some { acc with
      phrases := acc.phrases ++ [ph],
      speakers := addSpeakerText acc.speakers speaker text }

/-- `AzureSpeechService.parse_transcription_with_diarization`. -/
def parse_transcription_with_diarization (r : RawResult) : Option ParsedResult := do
  let fullText :=
    match r.combinedRecognizedPhrases.getD [] with
    | [] => ""
    | c :: _ => c.display.getD ""
  let dur ← parse_duration (r.duration.getD "PT0S")
  (r.recognizedPhrases.getD []).foldlM processPhrase
    { fullText := fullText, speakers := [], durationSeconds := dur, phrases := [] }

/-- The phrase a loop iteration emits, if any (spec side): `none` exactly
when the phrase has no recognition hypotheses. -/
def keptPhrase (p : RawPhrase) : Option Phrase :=
  match p.nBest.getD [] with
  | [] => none
  | best :: _ =>
    let off := (parse_duration (p.offset.getD "PT0S")).getD 0
    let dur := (parse_duration (p.duration.getD "PT0S")).getD 0
    let ph : Phrase :=
      { speaker := p.speaker.getD 0, text := best.display.getD "",
        startTime := off, endTime := off + dur, duration := dur,
        confidence := best.confidence.getD 0 }
    some ph

/-- First-seen order of a list of ids (spec side). -/
def firstSeen (l : List ℤ) : List ℤ :=
  l.foldl (fun acc s => if s ∈ acc then acc else acc ++ [s]) []

/-- A phrase with an empty `nBest` list and a malformed offset string. -/
def emptyHypPhrase : RawPhrase :=
  { speaker := some 1, offset := some "PT.S", duration := none, nBest := some [] }

/-- A well-formed phrase with one hypothesis. -/
def okPhrase : RawPhrase :=
  { speaker := some 2, offset := none, duration := none,
    nBest := some [{ display := some "ok", confidence := some 1 }] }

/-- A raw result containing an empty-`nBest` phrase followed by a good one. -/
def mixedRawResult : RawResult :=
  { combinedRecognizedPhrases := none, duration := none,
    recognizedPhrases := some [emptyHypPhrase, okPhrase] }

/-- `C5` counterexample: a phrase with an empty `nBest` list is *not*
always skipped harmlessly — its offset string is decoded before the
`nBest` check, so `mixedRawResult` makes the parser raise, losing the
following well-formed phrase as well. -/
theorem C5_counterexample_empty_nbest_raises :
    parse_transcription_with_diarization mixedRawResult = none := by
  decide

theorem map_addSpeakerText (sp : List SpeakerAgg) (s : ℤ) (t : String) :
    (addSpeakerText sp s t).map SpeakerAgg.speakerId =
      if s ∈ sp.map SpeakerAgg.speakerId then sp.map SpeakerAgg.speakerId
      else sp.map SpeakerAgg.speakerId ++ [s] := by
  induction sp with
  | nil => simp [addSpeakerText]
  | cons a rest ih =>
    by_cases h : a.speakerId = s
    · simp [addSpeakerText, h]
    · have hne : ¬s = a.speakerId := fun hh => h hh.symm
      by_cases hm : s ∈ rest.map SpeakerAgg.speakerId
      · simp [addSpeakerText, h, ih, hm, List.mem_cons, hne]
      · simp [addSpeakerText, h, ih, hm, List.mem_cons, hne]

theorem foldl_addSpeakerText_map (phs : List Phrase) (sp : List SpeakerAgg) :
    ((phs.foldl (fun acc ph => addSpeakerText acc ph.speaker ph.text) sp).map
        SpeakerAgg.speakerId) =
      (phs.map Phrase.speaker).foldl
        (fun acc s => if s ∈ acc then acc else acc ++ [s])
        (sp.map SpeakerAgg.speakerId) := by
  induction phs generalizing sp with
  | nil => rfl
  | cons ph rest ih =>
    simp only [List.foldl_cons, List.map_cons]
    rw [ih, map_addSpeakerText]

/-- The loop of `parse_transcription_with_diarization`, run from any
accumulator, when every phrase's offset/duration decodes without raising:
it appends exactly the kept phrases in order, aggregates their speakers,
and leaves the other fields alone. -/
theorem foldlM_processPhrase (ps : List RawPhrase) (acc : ParsedResult)
    (hps : ∀ p ∈ ps, (parse_duration (p.offset.getD "PT0S")).isSome ∧
      (parse_duration (p.duration.getD "PT0S")).isSome) :
    ∃ out, ps.foldlM processPhrase acc = some out ∧
      out.phrases = acc.phrases ++ ps.filterMap keptPhrase ∧
      out.speakers = (ps.filterMap keptPhrase).foldl
        (fun sp ph => addSpeakerText sp ph.speaker ph.text) acc.speakers ∧
      out.fullText = acc.fullText ∧
      out.durationSeconds = acc.durationSeconds := by
  induction ps generalizing acc with
  | nil => exact ⟨acc, rfl, by simp, by simp, rfl, rfl⟩
  | cons p ps ih =>
    obtain ⟨ho, hd⟩ := hps p (List.mem_cons_self p ps)
    obtain ⟨ov, hov⟩ := Option.isSome_iff_exists.1 ho
    obtain ⟨dv, hdv⟩ := Option.isSome_iff_exists.1 hd
    have hih := fun acc' => ih acc' (fun q hq => hps q (List.mem_cons_of_mem p hq))
    cases hnb : p.nBest.getD [] with
    | nil =>
      have hstep : processPhrase acc p = some acc := by
        unfold processPhrase
        rw [hov, hdv, hnb]
        rfl
      have hkept : keptPhrase p = none := by
        unfold keptPhrase
        rw [hnb]
      obtain ⟨out, h1, h2, h3, h4, h5⟩ := hih acc
      refine ⟨out, ?_, ?_, ?_, h4, h5⟩
      · rw [List.foldlM_cons, hstep]
        simpa using h1
      · rw [h2, List.filterMap_cons, hkept]
      · rw [h3, List.filterMap_cons, hkept]
    | cons best tl =>
      have hkept : keptPhrase p = some
          { speaker := p.speaker.getD 0, text := best.display.getD "",
            startTime := ov, endTime := ov + dv, duration := dv,
            confidence := best.confidence.getD 0 } := by
        unfold keptPhrase
        rw [hnb, hov, hdv]
        rfl
      have hstep : processPhrase acc p = some
          { acc with
            phrases := acc.phrases ++
              [{ speaker := p.speaker.getD 0, text := best.display.getD "",
                 startTime := ov, endTime := ov + dv, duration := dv,
                 confidence := best.confidence.getD 0 }],
            speakers := addSpeakerText acc.speakers (p.speaker.getD 0)
              (best.display.getD "") } := by
        unfold processPhrase
        rw [hov, hdv, hnb]
        rfl
      obtain ⟨out, h1, h2, h3, h4, h5⟩ := hih
        { acc with
          phrases := acc.phrases ++
            [{ speaker := p.speaker.getD 0, text := best.display.getD "",
               startTime := ov, endTime := ov + dv, duration := dv,
               confidence := best.confidence.getD 0 }],
          speakers := addSpeakerText acc.speakers (p.speaker.getD 0)
            (best.display.getD "") }
      refine ⟨out, ?_, ?_, ?_, h4, h5⟩
      · rw [List.foldlM_cons, hstep]
        simpa using h1
      · rw [h2, List.filterMap_cons, hkept]
        simp
      · rw [h3, List.filterMap_cons, hkept]
        simp [List.foldl_cons]

/-- `C5` amended: provided the top-level duration and every phrase's
offset/duration strings decode without raising (cf. `C5`'s
counterexample), the parser succeeds, emits exactly the phrases with a
nonempty `nBest` list in input order (phrases with no hypotheses are
skipped without affecting the rest), and the speaker aggregates appear in
first-seen speaker order. -/
theorem C5_diarization_order_and_skip (r : RawResult)
    (hdur : (parse_duration (r.duration.getD "PT0S")).isSome)
    (hph : ∀ p ∈ r.recognizedPhrases.getD [],
      (parse_duration (p.offset.getD "PT0S")).isSome ∧
      (parse_duration (p.duration.getD "PT0S")).isSome) :
    ∃ out, parse_transcription_with_diarization r = some out ∧
      out.phrases = (r.recognizedPhrases.getD []).filterMap keptPhrase ∧
      out.speakers.map SpeakerAgg.speakerId =
        firstSeen (((r.recognizedPhrases.getD []).filterMap keptPhrase).map
          Phrase.speaker) := by
  obtain ⟨dv, hdv⟩ := Option.isSome_iff_exists.1 hdur
  obtain ⟨out, h1, h2, h3, _, _⟩ := foldlM_processPhrase
    (r.recognizedPhrases.getD [])
    { fullText :=
        match r.combinedRecognizedPhrases.getD [] with
        | [] => ""
        | c :: _ => c.display.getD ""
      speakers := [], durationSeconds := dv, phrases := [] } hph
  refine ⟨out, ?_, by simpa using h2, ?_⟩
  · unfold parse_transcription_with_diarization
    rw [hdv]
    simpa using h1
  · rw [h3, foldl_addSpeakerText_map]
    simp [firstSeen]

/-- A raw result with one empty-`nBest` phrase between two good ones and
well-formed duration fields. -/
def okRawResult : RawResult :=
  { combinedRecognizedPhrases := some [{ display := some "Hello world." }],
    duration := some "PT2S",
    recognizedPhrases := some
      [{ speaker := some 1, offset := some "PT0S", duration := some "PT1S",
         nBest := some [{ display := some "Hello", confidence := some (9/10) }] },
       { speaker := some 1, offset := some "PT1S", duration := none,
         nBest := some [] },
       { speaker := some 2, offset := some "PT1S", duration := some "PT1S",
         nBest := some [{ display := some "world.", confidence := some (8/10) }] }] }

/-- `C5` witness: the amended theorem applied to `okRawResult`. -/
theorem C5_witness_mixed_result :
    ∃ out, parse_transcription_with_diarization okRawResult = some out ∧
      out.phrases = (okRawResult.recognizedPhrases.getD []).filterMap keptPhrase ∧
      out.speakers.map SpeakerAgg.speakerId =
        firstSeen (((okRawResult.recognizedPhrases.getD []).filterMap keptPhrase).map
          Phrase.speaker) :=
  C5_diarization_order_and_skip okRawResult (by decide) (by decide)

/-! ## Text chunker: `chunk_text` (embeddings.py lines 35-88)

```python
chunk_size = chunk_size or settings.CHUNK_SIZE_TOKENS   # 512 by default
overlap = overlap or settings.CHUNK_OVERLAP_TOKENS      # 50 by default
chars_per_chunk = chunk_size * 4
chars_overlap = overlap * 4
chunks = []
start = 0
text_len = len(text)
while start < text_len:
    end = start + chars_per_chunk
    chunk = text[start:end]
    if end < text_len:
        last_period = chunk.rfind(". ")
        if last_period > chars_per_chunk * 0.7:
            chunk = chunk[:last_period + 1]
            end = start + last_period + 1
    chunks.append(chunk.strip())
    start = end - chars_overlap
    if start <= 0:
        start = end
return chunks
```

The loop is not structurally recursive (and, as claim `C1`'s analysis
shows, it genuinely diverges for some inputs), so it is embedded with an
explicit fuel parameter: `none` means the fuel ran out before the loop
finished.  Divergence of the Python loop on an input is the statement
that every fuel amount returns `none`.

The float comparison `last_period > chars_per_chunk * 0.7` is modeled as
the exact comparison `10 * last_period > 7 * chars_per_chunk`; no claim in
scope depends on the sub-ulp rounding of `chars_per_chunk * 0.7`. -/

/-- Python `str.strip()` (both-ends whitespace trim) on a char list. -/
def stripChars (l : List Char) : List Char :=
  ((l.dropWhile Char.isWhitespace).reverse.dropWhile Char.isWhitespace).reverse

/-- Python `chunk.rfind(". ")`: index of the last occurrence of the
two-character pattern, or `none` (Python: `-1`). -/
def rfindDotSpace (l : List Char) : Option ℕ :=
  ((List.range l.length).filter
    (fun i => l.getD i ' ' = '.' ∧ l.getD (i + 1) 'x' = ' ')).getLast?

/-- One iteration's cut: the window `text[start:start+cpc]`, shortened at
the last `". "` occurrence when that occurrence lies past 70% of the
window (`chunk = chunk[:last_period+1]; end = start + last_period + 1`).
Returns the cut chunk and the numeric `end`. -/
def cutAt (cs : List Char) (cpc start : ℕ) : List Char × ℕ :=
  if start + cpc < cs.length then
    match rfindDotSpace ((cs.drop start).take cpc) with
    | some lp =>
      if 10 * lp > 7 * cpc then (((cs.drop start).take cpc).take (lp + 1), start + lp + 1)
      else ((cs.drop start).take cpc, start + cpc)
    | none => ((cs.drop start).take cpc, start + cpc)
  else ((cs.drop start).take cpc, start + cpc)

/-- The `while start < text_len` loop, with fuel.  The next start is
`end - chars_overlap`, forced to `end` if that is `≤ 0`
(`if start <= 0: start = end`).  `cpc`/`co` are `chars_per_chunk` /
`chars_overlap`. -/
def chunkLoop (cs : List Char) (cpc co : ℕ) : ℕ → ℕ → Option (List String)
  | 0, _ => none
  | fuel + 1, start =>
    if start < cs.length then
      (chunkLoop cs cpc co fuel
          (if (cutAt cs cpc start).2 ≤ co then (cutAt cs cpc start).2
           else (cutAt cs cpc start).2 - co)).map
        (fun rest => (⟨stripChars (cutAt cs cpc start).1⟩ : String) :: rest)
    else some []

/-- `EmbeddingsService.chunk_text` with explicit arguments and fuel.
Passing `0` for either argument selects the settings default
(`CHUNK_SIZE_TOKENS = 512`, `CHUNK_OVERLAP_TOKENS = 50`), mirroring the
Python `chunk_size or settings.CHUNK_SIZE_TOKENS` falsy-default idiom. -/
def chunk_text (chunkSize overlap : ℕ) (text : String) (fuel : ℕ) :
    Option (List String) :=
  let cpc := (if chunkSize = 0 then 512 else chunkSize) * 4
  let co := (if overlap = 0 then 50 else overlap) * 4
  chunkLoop text.data cpc co fuel 0

/-- Nine characters with no sentence boundary. -/
def nineAs : String := "aaaaaaaaa"

/-- On `chunk_text("aaaaaaaaa", chunk_size=1, overlap=1)` the loop reaches
`start = 4` and then maps it back to `start = 4` forever: `end = 8`,
`start = end - chars_overlap = 4 > 0`, so the `start <= 0` guard never
fires. -/
theorem chunkLoop_stuck_at_four (fuel : ℕ) :
    chunkLoop nineAs.data 4 4 fuel 4 = none := by
  induction fuel with
  | zero => rfl
  | succ n ih =>
    rw [chunkLoop, if_pos (by decide)]
    rw [show (if (cutAt nineAs.data 4 4).2 ≤ 4 then (cutAt nineAs.data 4 4).2
      else (cutAt nineAs.data 4 4).2 - 4) = 4 from by decide]
    rw [ih]
    rfl

/-- `C1`: the chunker's forward-progress guard (`if start <= 0`) does
*not* make every call terminate: with `targetTokens = overlapTokens = 1`
on the nine-character text `"aaaaaaaaa"` the loop diverges — no amount of
fuel completes it.  (The spec's guard, forcing the start past the
*previous cut* rather than past zero, would have terminated.) -/
theorem C1_chunk_text_diverges (fuel : ℕ) :
    chunk_text 1 1 nineAs fuel = none := by
  cases fuel with
  | zero => rfl
  | succ n =>
    show chunkLoop nineAs.data 4 4 (n + 1) 0 = none
    rw [chunkLoop, if_pos (by decide)]
    rw [show (if (cutAt nineAs.data 4 0).2 ≤ 4 then (cutAt nineAs.data 4 0).2
      else (cutAt nineAs.data 4 0).2 - 4) = 4 from by decide]
    rw [chunkLoop_stuck_at_four]
    rfl

/-! ## Vector index engine (embeddings.py lines 90-318)

The engine calls `chunk_text(text)` with the settings defaults
(`CHUNK_SIZE_TOKENS = 512`, `CHUNK_OVERLAP_TOKENS = 50`, i.e.
`chars_per_chunk = 2048`, `chars_overlap = 200`); with those parameters the
loop advances by at least 1235 characters per iteration, so it terminates
and `length + 1` fuel always suffices (`chunkLoop_default_total`). -/

theorem cutAt_default_snd_lb (cs : List Char) (start : ℕ) :
    start + 1435 ≤ (cutAt cs 2048 start).2 := by
  unfold cutAt
  split
  · split
    · split
      next hlp => simp only []; omega
      next hlp => simp only []; omega
    · simp only []; omega
  · simp only []; omega

theorem chunkLoop_default_total (cs : List Char) :
    ∀ fuel start, cs.length - start < fuel →
      (chunkLoop cs 2048 200 fuel start).isSome := by
  intro fuel
  induction fuel with
  | zero => intro start h; omega
  | succ n ih =>
    intro start h
    by_cases hs : start < cs.length
    · rw [chunkLoop, if_pos hs]
      have harith : cs.length - (if (cutAt cs 2048 start).2 ≤ 200
          then (cutAt cs 2048 start).2 else (cutAt cs 2048 start).2 - 200) < n := by
        have h2 := cutAt_default_snd_lb cs start
        split <;> omega
      obtain ⟨v, hv⟩ := Option.isSome_iff_exists.1 (ih _ harith)
      rw [hv]
      rfl
    · rw [chunkLoop, if_neg hs]
      rfl

/-- Default-parameter chunking, `chunk_text(text)` as called by the
engine; total by `chunkLoop_default_total` (the `getD` default is dead). -/
def chunkTextDef (text : String) : List String :=
  (chunkLoop text.data 2048 200 (text.data.length + 1) 0).getD []

theorem chunkTextDef_eq (text : String) :
    chunkLoop text.data 2048 200 (text.data.length + 1) 0 =
      some (chunkTextDef text) := by
  obtain ⟨v, hv⟩ := Option.isSome_iff_exists.1
    (chunkLoop_default_total text.data (text.data.length + 1) 0 (by omega))
  rw [hv]
  unfold chunkTextDef
  rw [hv]
  rfl

/-- An embedding vector; the numeric content of vectors plays no role in
the claims in scope. -/
abbrev Vec := List ℚ

/-- The external Azure OpenAI embeddings client (one HTTP call per batch);
`.error` models a raised exception, with its message. -/
abbrev EmbedApi := List String → Except String (List Vec)

/-- `AzureOpenAIService.generate_embeddings_batch`: walk the texts in
batches of 16, one client call per batch, concatenating the returned
embeddings in order; any batch failure propagates (is re-raised). -/
def generate_embeddings_batch (api : EmbedApi) : List String → Except String (List Vec)
  | [] => .ok []
  | t :: rest =>
    match api (t :: rest.take 15) with
    | .error e => .error e
    | .ok vs =>
      match generate_embeddings_batch api (rest.drop 15) with
      | .error e => .error e
      | .ok more => .ok (vs ++ more)
  termination_by l => l.length
  decreasing_by simp [List.length_drop]; omega

/-- The pickled metadata dict `_save_index` writes next to the index file.
The free-form caller metadata (`metadata or {}`) is carried opaquely in
`extra`; the constant `"dimension": 1536` entry, which no claim reads, is
omitted. -/
structure IndexMeta where
  jobId : String
  chunks : List String
  numChunks : ℕ
  extra : Option String
  deriving DecidableEq

/-- The persisted pair for one job: the FAISS index (its vectors, in
insertion order) and the metadata dict. -/
structure FaissEntry where
  vectors : List Vec
  meta : IndexMeta
  deriving DecidableEq

/-- The on-disk store: `{base_path}/{job_id}.index` + `.meta`, keyed by
job id. -/
def Store := String → Option FaissEntry

/-- `_save_index`: (over)write the pair for one job id. -/
def setStore (store : Store) (jobId : String) (e : FaissEntry) : Store :=
  fun j => if j = jobId then some e else store j

inductive EngErr
  /-- `ValueError("Nenhum chunk gerado do texto")` -/
  | emptyChunks
  /-- a raised embedding-collaborator exception, with its message -/
  | embedFail (msg : String)
  /-- the numpy/faiss shape error on an empty batch: `np.array([])` is
  1-D, and `faiss.normalize_L2` requires a matrix -/
  | dimMismatch
  /-- `ValueError(f"Índice não encontrado para job {job_id}")` -/
  | notFound (jobId : String)
  /-- faiss asserts `k > 0` in `Index::search` -/
  | badK
  deriving DecidableEq

/-- `faiss.normalize_L2(np.array(rows, dtype=np.float32))` followed by
`index.add`: raises when the batch is empty (the array is 1-D, not a
matrix); otherwise rescales each row in place and adds them.  Row count
and order are unchanged by the rescale, and no claim in scope depends on
the numeric scale of a row, so the rescale is modeled as the identity on
row values. -/
def normalizeRows (rows : List Vec) : Except EngErr (List Vec) :=
  if rows = [] then .error .dimMismatch else .ok rows

/-- The statistics dict `create_index_for_job` returns (the float
`index_size_mb` entry is omitted). -/
structure CreateStats where
  jobId : String
  numChunks : ℕ
  dimension : ℕ
  deriving DecidableEq

/-- `EmbeddingsService.create_index_for_job`.  State-passing: the second
component is the store after the call; on a raise (`.error`) the store is
whatever had been written when the exception escaped — which is the
untouched input store, since `_save_index` runs only after chunking and
all embedding batches succeed. -/
def create_index_for_job (api : EmbedApi) (store : Store) (jobId text : String)
    (metadata : Option String) : Except EngErr CreateStats × Store :=
  if chunkTextDef text = [] then (.error .emptyChunks, store)
  else
    match generate_embeddings_batch api (chunkTextDef text) with
    | .error e => (.error (.embedFail e), store)
    | .ok embs =>
      match normalizeRows embs with
      | .error e => (.error e, store)
      | .ok rows =>
        (.ok { jobId := jobId, numChunks := (chunkTextDef text).length,
               dimension := 1536 },
         setStore store jobId
           { vectors := rows,
             meta := { jobId := jobId, chunks := chunkTextDef text,
                       numChunks := (chunkTextDef text).length,
                       extra := metadata } })

/-- `EmbeddingsService.update_index`: if no index is persisted, fall back
to `create_index_for_job(job_id, new_text, metadata.get("metadata"))`
(with the empty loaded metadata, i.e. `none`); otherwise chunk the new
text, embed, normalize, `index.add`, extend the chunk list, and save. -/
def update_index (api : EmbedApi) (store : Store) (jobId newText : String) :
    Except EngErr Bool × Store :=
  match store jobId with
  | none =>
    match create_index_for_job api store jobId newText none with
    | (.error e, s) => (.error e, s)
    | (.ok _, s) => (.ok true, s)
  | some entry =>
    match generate_embeddings_batch api (chunkTextDef newText) with
    | .error e => (.error (.embedFail e), store)
    | .ok embs =>
      match normalizeRows embs with
      | .error e => (.error e, store)
      | .ok rows =>
        (.ok true,
         setStore store jobId
           { vectors := entry.vectors ++ rows,
             meta := { entry.meta with
               chunks := entry.meta.chunks ++ chunkTextDef newText,
               numChunks := (entry.meta.chunks ++ chunkTextDef newText).length } })

/-- `EmbeddingsService.index_exists`: `os.path.exists` on the index file. -/
def index_exists (store : Store) (jobId : String) : Bool :=
  (store jobId).isSome

/-- Inner product of two vectors. -/
def dot (a b : Vec) : ℚ := (List.zipWith (fun x y => x * y) a b).sum

/-- Ordering of scored index entries as `faiss.IndexFlatIP.search`
returns them: by score descending, ties by ascending insertion index. -/
def hitBefore (a b : ℚ × ℕ) : Bool :=
  decide (b.1 < a.1 ∨ (a.1 = b.1 ∧ a.2 < b.2))

def insertRanked (x : ℚ × ℕ) : List (ℚ × ℕ) → List (ℚ × ℕ)
  | [] => [x]
  | y :: ys => if hitBefore x y then x :: y :: ys else y :: insertRanked x ys

def rankSort : List (ℚ × ℕ) → List (ℚ × ℕ)
  | [] => []
  | x :: xs => insertRanked x (rankSort xs)

/-- `index.search(query_vector, k)` on a flat inner-product index holding
`vectors`: faiss asserts `k > 0`; otherwise the `k` nearest (score, index)
pairs, best first, ties broken by ascending index. -/
def faissTop (vectors : List Vec) (q : Vec) (k : ℕ) :
    Except EngErr (List (ℚ × ℕ)) :=
  if k = 0 then .error .badK
  else .ok ((rankSort ((vectors.enum).map (fun p => (dot q p.2, p.1)))).take k)

/-- One search result row `{rank, chunk, score, index}`. -/
structure Hit where
  rank : ℕ
  chunk : String
  score : ℚ
  index : ℕ
  deriving DecidableEq

/-- The `for i, (score, idx) in enumerate(zip(...))` result-assembly loop:
ranks are 1-based enumeration positions (counted even for rows the
`idx < len(chunks)` guard drops). -/
def buildHits (chunks : List String) : ℕ → List (ℚ × ℕ) → List Hit
  | _, [] => []
  | i, (score, idx) :: rest =>
    if idx < chunks.length then
      { rank := i + 1, chunk := chunks.getD idx "", score := score, index := idx }
        :: buildHits chunks (i + 1) rest
    else buildHits chunks (i + 1) rest

/-- `EmbeddingsService.search`.  `queryEmbed` models
`generate_embeddings` (the single-text embedding call, which carries its
own tenacity retry wrapper around the external client). -/
def search (queryEmbed : String → Except String Vec) (store : Store)
    (jobId query : String) (topK : ℕ) : Except EngErr (List Hit) :=
  match store jobId with
  | none => .error (.notFound jobId)
  | some entry =>
    match queryEmbed query with
    | .error e => .error (.embedFail e)
    | .ok qv =>
      match normalizeRows [qv] with
      | .error e => .error e
      | .ok qrows =>
        match faissTop entry.vectors (qrows.headD []) (min topK entry.vectors.length) with
        | .error e => .error e
        | .ok pairs => .ok (buildHits entry.meta.chunks 0 pairs)

/-- `C8`: for a job id with no persisted index, `search` raises the
not-found error and `index_exists` returns `false`. -/
theorem C8_search_missing_index (qe : String → Except String Vec) (store : Store)
    (jobId query : String) (topK : ℕ) (h : store jobId = none) :
    search qe store jobId query topK = .error (.notFound jobId) ∧
      index_exists store jobId = false := by
  constructor
  · unfold search
    rw [h]
  · unfold index_exists
    rw [h]
    rfl

/-- `C8` witness: the empty store. -/
theorem C8_witness_empty_store :
    search (fun _ => .ok [1]) (fun _ => none) "job1" "q" 5 =
        .error (.notFound "job1") ∧
      index_exists (fun _ => none) "job1" = false :=
  C8_search_missing_index (fun _ => .ok [1]) (fun _ => none) "job1" "q" 5 rfl

/-- `C3`: `create_index_for_job` fails with the empty-input error when
chunking yields no chunks, propagates embedding-collaborator failures, and
in both cases leaves the store untouched — the index/metadata pair is
persisted (only) when all embeddings succeeded, and holds exactly the
embedded vectors and the chunks. -/
theorem C3_create_no_partial_persist (api : EmbedApi) (store : Store)
    (jobId text : String) (metadata : Option String) :
    (chunkTextDef text = [] →
      create_index_for_job api store jobId text metadata =
        (.error .emptyChunks, store)) ∧
    (∀ e, generate_embeddings_batch api (chunkTextDef text) = .error e →
      create_index_for_job api store jobId text metadata =
        (.error (.embedFail e), store)) ∧
    (∀ stats s',
      create_index_for_job api store jobId text metadata = (.ok stats, s') →
      ∃ vs, generate_embeddings_batch api (chunkTextDef text) = .ok vs ∧ vs ≠ [] ∧
        s' = setStore store jobId
          { vectors := vs,
            meta := { jobId := jobId, chunks := chunkTextDef text,
                      numChunks := (chunkTextDef text).length,
                      extra := metadata } }) := by
  refine ⟨?_, ?_, ?_⟩
  · intro h
    unfold create_index_for_job
    rw [if_pos h]
  · intro e he
    unfold create_index_for_job
    split
    next hc =>
      rw [hc] at he
      simp [generate_embeddings_batch] at he
    next hc =>
      rw [he]
  · intro stats s' h
    unfold create_index_for_job at h
    by_cases hc : chunkTextDef text = []
    · rw [if_pos hc] at h
      exact absurd (congrArg Prod.fst h) (by simp)
    · rw [if_neg hc] at h
      rcases hg : generate_embeddings_batch api (chunkTextDef text) with e | vs <;>
        simp only [hg] at h
      · exact absurd (congrArg Prod.fst h) (by simp)
      · rcases hn : normalizeRows vs with e2 | rows <;> simp only [hn] at h
        · exact absurd (congrArg Prod.fst h) (by simp)
        · have hro : rows = vs ∧ vs ≠ [] := by
            unfold normalizeRows at hn
            by_cases hvs : vs = []
            · rw [if_pos hvs] at hn
              cases hn
            · rw [if_neg hvs] at hn
              exact ⟨(Except.ok.inj hn).symm, hvs⟩
          refine ⟨vs, rfl, hro.2, ?_⟩
          have hs' := (congrArg Prod.snd h).symm
          simp only at hs'
          rw [hs', hro.1]

/-- `C3` witness: a one-chunk text with a failing collaborator leaves the
store unchanged, and an empty text fails with the empty-input error. -/
theorem C3_witness_error_paths :
    create_index_for_job (fun _ => .error "boom") (fun _ => none) "job1" "hi" none =
        (.error (.embedFail "boom"), fun _ => none) ∧
      create_index_for_job (fun _ => .error "boom") (fun _ => none) "job1" "" none =
        (.error .emptyChunks, fun _ => none) := by
  constructor
  · exact (C3_create_no_partial_persist (fun _ => .error "boom") (fun _ => none)
      "job1" "hi" none).2.1 "boom"
      (by rw [show chunkTextDef "hi" = ["hi"] from by decide]
          simp [generate_embeddings_batch])
  · exact (C3_create_no_partial_persist (fun _ => .error "boom") (fun _ => none)
      "job1" "" none).1 (by decide)

/-- A persisted one-chunk index for `"job1"`. -/
def entry1 : FaissEntry :=
  { vectors := [[1]],
    meta := { jobId := "job1", chunks := ["c"], numChunks := 1, extra := none } }

/-- A store holding exactly `entry1` under `"job1"`. -/
def store1 : Store := fun j => if j = "job1" then some entry1 else none

/-- An embedding collaborator that returns the vector `[1]` for every
text. -/
def apiOnes : EmbedApi := fun ts => .ok (ts.map fun _ => [1])

/-- `C9` counterexample: updating an existing index with a text that
chunks to zero chunks (the empty string) does not strictly increase the
chunk and vector counts — it raises (`np.array([])` is 1-D and
`faiss.normalize_L2` rejects it) and leaves the persisted pair exactly as
it was, chunk count still 1. -/
theorem C9_counterexample_empty_update :
    update_index apiOnes store1 "job1" "" = (.error .dimMismatch, store1) := by
  unfold update_index
  have h1 : store1 "job1" = some entry1 := rfl
  have h2 : chunkTextDef "" = [] := rfl
  simp only [h1, h2]
  simp [generate_embeddings_batch, normalizeRows]

/-- `C9` amended: on an existing index, for any `newText` whose chunking
yields at least one chunk (the empty string yields none and raises
instead, see the counterexample), `update_index` succeeds and appends:
the new chunk count and vector count each grow by exactly the number of
chunks of `newText` (in particular strictly), and every pre-existing
vector and chunk stays in place as a prefix; with no persisted index,
`update_index` returns exactly what `create_index_for_job` produces
(build fallback). -/
theorem C9_update_appends (api : EmbedApi) (store : Store) (jobId newText : String) :
    (∀ entry vs, store jobId = some entry →
      generate_embeddings_batch api (chunkTextDef newText) = .ok vs → vs ≠ [] →
      update_index api store jobId newText =
        (.ok true, setStore store jobId
          { vectors := entry.vectors ++ vs,
            meta := { entry.meta with
              chunks := entry.meta.chunks ++ chunkTextDef newText,
              numChunks := (entry.meta.chunks ++ chunkTextDef newText).length } })) ∧
    (∀ entry vs, store jobId = some entry →
      generate_embeddings_batch api (chunkTextDef newText) = .ok vs →
      vs.length = (chunkTextDef newText).length → chunkTextDef newText ≠ [] →
      ∃ entry', (update_index api store jobId newText) =
          (.ok true, setStore store jobId entry') ∧
        entry'.vectors.length =
          entry.vectors.length + (chunkTextDef newText).length ∧
        entry'.meta.chunks.length =
          entry.meta.chunks.length + (chunkTextDef newText).length ∧
        entry.vectors.length < entry'.vectors.length ∧
        entry.meta.chunks.length < entry'.meta.chunks.length ∧
        entry'.vectors.take entry.vectors.length = entry.vectors ∧
        entry'.meta.chunks.take entry.meta.chunks.length = entry.meta.chunks) ∧
    (store jobId = none →
      update_index api store jobId newText =
        ((create_index_for_job api store jobId newText none).1.map (fun _ => true),
         (create_index_for_job api store jobId newText none).2)) := by
  have hmain : ∀ entry vs, store jobId = some entry →
      generate_embeddings_batch api (chunkTextDef newText) = .ok vs → vs ≠ [] →
      update_index api store jobId newText =
        (.ok true, setStore store jobId
          { vectors := entry.vectors ++ vs,
            meta := { entry.meta with
              chunks := entry.meta.chunks ++ chunkTextDef newText,
              numChunks := (entry.meta.chunks ++ chunkTextDef newText).length } }) := by
    intro entry vs hst hg hvs
    unfold update_index
    simp only [hst, hg]
    unfold normalizeRows
    rw [if_neg hvs]
  refine ⟨hmain, ?_, ?_⟩
  · intro entry vs hst hg hlen hch
    have hvs : vs ≠ [] := by
      intro hv
      rw [hv] at hlen
      exact hch (List.length_eq_zero.1 hlen.symm)
    refine ⟨{ vectors := entry.vectors ++ vs,
              meta := { entry.meta with
                chunks := entry.meta.chunks ++ chunkTextDef newText,
                numChunks := (entry.meta.chunks ++ chunkTextDef newText).length } },
      hmain entry vs hst hg hvs, ?_, ?_, ?_, ?_, ?_, ?_⟩
    · simp [List.length_append, hlen]
    · simp [List.length_append]
    · have : 0 < (chunkTextDef newText).length :=
        List.length_pos.2 hch
      simp [List.length_append, hlen]
      omega
    · have : 0 < (chunkTextDef newText).length :=
        List.length_pos.2 hch
      simp [List.length_append]
      omega
    · exact List.take_left _ _
    · exact List.take_left _ _
  · intro hst
    unfold update_index
    simp only [hst]
    rcases hc : create_index_for_job api store jobId newText none with ⟨r, s⟩
    cases r <;> rfl

/-- `C9` witness: appending `"hi"` (one chunk) to the one-chunk index
`entry1` grows both counts from 1 to 2 and keeps the old vector and chunk
in place. -/
theorem C9_witness_append_hi :
    ∃ entry', (update_index apiOnes store1 "job1" "hi") =
        (.ok true, setStore store1 "job1" entry') ∧
      entry'.vectors.length = entry1.vectors.length + (chunkTextDef "hi").length ∧
      entry'.meta.chunks.length =
        entry1.meta.chunks.length + (chunkTextDef "hi").length ∧
      entry1.vectors.length < entry'.vectors.length ∧
      entry1.meta.chunks.length < entry'.meta.chunks.length ∧
      entry'.vectors.take entry1.vectors.length = entry1.vectors ∧
      entry'.meta.chunks.take entry1.meta.chunks.length = entry1.meta.chunks :=
  (C9_update_appends apiOnes store1 "job1" "hi").2.1 entry1 [[1]] rfl
    (by rw [show chunkTextDef "hi" = ["hi"] from by decide]
        simp [generate_embeddings_batch, apiOnes])
    (by decide) (by decide)

/-! ### The `C10` invariant: vector count = chunk count, and search shape -/

/-- The documented contract of the external embeddings client (spec §6:
`embedBatch` is order-preserving, one vector per text), as the length law
the engine relies on. -/
def EmbedApiOk (api : EmbedApi) : Prop :=
  ∀ ts vs, api ts = .ok vs → vs.length = ts.length

theorem generate_embeddings_batch_length_aux {api : EmbedApi} (hapi : EmbedApiOk api) :
    ∀ n ts vs, ts.length ≤ n →
      generate_embeddings_batch api ts = .ok vs → vs.length = ts.length := by
  intro n
  induction n with
  | zero =>
    intro ts vs hle h
    cases ts with
    | nil =>
      simp only [generate_embeddings_batch] at h
      cases h
      rfl
    | cons t rest => simp at hle
  | succ n ih =>
    intro ts vs hle h
    cases ts with
    | nil =>
      simp only [generate_embeddings_batch] at h
      cases h
      rfl
    | cons t rest =>
      simp only [generate_embeddings_batch] at h
      revert h
      cases h1 : api (t :: rest.take 15) with
      | error e => intro h; simp at h
      | ok vs1 =>
        intro h
        revert h
        cases h2 : generate_embeddings_batch api (rest.drop 15) with
        | error e2 => intro h; simp at h
        | ok more =>
          intro h
          have h' : vs1 ++ more = vs := by simpa using h
          have hl1 : vs1.length = (t :: rest.take 15).length := hapi _ _ h1
          have hl2 : more.length = (rest.drop 15).length :=
            ih (rest.drop 15) more
              (by simp only [List.length_cons] at hle
                  simp only [List.length_drop]
                  omega) h2
          rw [← h']
          simp only [List.length_append, hl1, hl2, List.length_cons,
            List.length_take, List.length_drop]
          omega

theorem generate_embeddings_batch_length {api : EmbedApi} (hapi : EmbedApiOk api)
    {ts : List String} {vs : List Vec}
    (h : generate_embeddings_batch api ts = .ok vs) : vs.length = ts.length :=
  generate_embeddings_batch_length_aux hapi ts.length ts vs le_rfl h

theorem length_insertRanked (x : ℚ × ℕ) (l : List (ℚ × ℕ)) :
    (insertRanked x l).length = l.length + 1 := by
  induction l with
  | nil => rfl
  | cons y ys ih =>
    unfold insertRanked
    split
    · simp
    · simp [ih]

theorem length_rankSort (l : List (ℚ × ℕ)) : (rankSort l).length = l.length := by
  induction l with
  | nil => rfl
  | cons x xs ih => simp [rankSort, length_insertRanked, ih]

theorem mem_insertRanked {z x : ℚ × ℕ} {l : List (ℚ × ℕ)}
    (h : z ∈ insertRanked x l) : z = x ∨ z ∈ l := by
  induction l with
  | nil => simpa [insertRanked] using h
  | cons y ys ih =>
    unfold insertRanked at h
    split at h
    · exact (List.mem_cons.1 h).imp id id
    · rcases List.mem_cons.1 h with h | h
      · exact Or.inr (List.mem_cons.2 (Or.inl h))
      · rcases ih h with h | h
        · exact Or.inl h
        · exact Or.inr (List.mem_cons.2 (Or.inr h))

theorem mem_rankSort {z : ℚ × ℕ} {l : List (ℚ × ℕ)} (h : z ∈ rankSort l) : z ∈ l := by
  induction l with
  | nil => simp [rankSort] at h
  | cons x xs ih =>
    unfold rankSort at h
    rcases mem_insertRanked h with h | h
    · simp [h]
    · simp [ih h]

/-- When every returned index is in range (which the `C10` invariant
guarantees), the result-assembly loop keeps every row, and ranks are the
consecutive enumeration positions. -/
theorem buildHits_spec (chunks : List String) :
    ∀ (pairs : List (ℚ × ℕ)) (i : ℕ),
      (∀ p ∈ pairs, p.2 < chunks.length) →
      (buildHits chunks i pairs).length = pairs.length ∧
      (∀ h ∈ buildHits chunks i pairs, h.index < chunks.length) ∧
      (∀ j (hj : j < (buildHits chunks i pairs).length),
        ((buildHits chunks i pairs).get ⟨j, hj⟩).rank = i + j + 1) := by
  intro pairs
  induction pairs with
  | nil =>
    intro i _
    refine ⟨rfl, by simp [buildHits], ?_⟩
    intro j hj
    simp [buildHits] at hj
  | cons p rest ih =>
    intro i hall
    obtain ⟨sc, idx⟩ := p
    have hidx : idx < chunks.length := hall (sc, idx) (List.mem_cons_self _ _)
    have hrest := ih (i + 1) (fun q hq => hall q (List.mem_cons_of_mem _ hq))
    have hB : buildHits chunks i ((sc, idx) :: rest) =
        { rank := i + 1, chunk := chunks.getD idx "", score := sc, index := idx }
          :: buildHits chunks (i + 1) rest := by
      conv_lhs => unfold buildHits
      rw [if_pos hidx]
    rw [hB]
    refine ⟨by simp [hrest.1], ?_, ?_⟩
    · intro h hh
      rcases List.mem_cons.1 hh with rfl | hh
      · exact hidx
      · exact hrest.2.1 h hh
    · intro j hj
      cases j with
      | zero => rfl
      | succ j' =>
        have hj' : j' < (buildHits chunks (i + 1) rest).length := by
          simp only [List.length_cons] at hj
          omega
        rw [List.get_cons_succ]
        rw [hrest.2.2 j' hj']
        omega

/-- The `C10` invariant on the persisted store: every persisted pair has
as many index vectors as chunk-list entries. -/
def StoreInv (store : Store) : Prop :=
  ∀ j e, store j = some e → e.vectors.length = e.meta.chunks.length

theorem StoreInv_setStore {store : Store} {jobId : String} {e : FaissEntry}
    (hinv : StoreInv store) (he : e.vectors.length = e.meta.chunks.length) :
    StoreInv (setStore store jobId e) := by
  intro j e' hj
  unfold setStore at hj
  by_cases h : j = jobId
  · rw [if_pos h] at hj
    cases hj
    exact he
  · rw [if_neg h] at hj
    exact hinv j e' hj

/-- Dissection of a successful `create_index_for_job`. -/
theorem create_ok_dissect {api : EmbedApi} {store : Store} {jobId text : String}
    {metadata : Option String} {stats : CreateStats} {s' : Store}
    (h : create_index_for_job api store jobId text metadata = (.ok stats, s')) :
    ∃ vs, generate_embeddings_batch api (chunkTextDef text) = .ok vs ∧ vs ≠ [] ∧
      s' = setStore store jobId
        { vectors := vs,
          meta := { jobId := jobId, chunks := chunkTextDef text,
                    numChunks := (chunkTextDef text).length,
                    extra := metadata } } := by
  unfold create_index_for_job at h
  by_cases hc : chunkTextDef text = []
  · rw [if_pos hc] at h
    exact absurd (congrArg Prod.fst h) (by simp)
  · rw [if_neg hc] at h
    rcases hg : generate_embeddings_batch api (chunkTextDef text) with e | vs <;>
      simp only [hg] at h
    · exact absurd (congrArg Prod.fst h) (by simp)
    · rcases hn : normalizeRows vs with e2 | rows <;> simp only [hn] at h
      · exact absurd (congrArg Prod.fst h) (by simp)
      · have hro : rows = vs ∧ vs ≠ [] := by
          unfold normalizeRows at hn
          by_cases hvs : vs = []
          · rw [if_pos hvs] at hn
            cases hn
          · rw [if_neg hvs] at hn
            exact ⟨(Except.ok.inj hn).symm, hvs⟩
        refine ⟨vs, rfl, hro.2, ?_⟩
        have hs' := (congrArg Prod.snd h).symm
        simp only at hs'
        rw [hs', hro.1]

/-- Dissection of a successful `update_index`. -/
theorem update_ok_dissect {api : EmbedApi} {store : Store} {jobId newText : String}
    {b : Bool} {s' : Store}
    (h : update_index api store jobId newText = (.ok b, s')) :
    (∃ entry vs, store jobId = some entry ∧
      generate_embeddings_batch api (chunkTextDef newText) = .ok vs ∧ vs ≠ [] ∧
      s' = setStore store jobId
        { vectors := entry.vectors ++ vs,
          meta := { entry.meta with
            chunks := entry.meta.chunks ++ chunkTextDef newText,
            numChunks := (entry.meta.chunks ++ chunkTextDef newText).length } }) ∨
    (∃ stats, create_index_for_job api store jobId newText none = (.ok stats, s')) := by
  unfold update_index at h
  rcases hst : store jobId with _ | entry <;> simp only [hst] at h
  · rcases hc : create_index_for_job api store jobId newText none with ⟨r, s⟩
    rw [hc] at h
    cases r with
    | error e => simp at h
    | ok stats =>
      simp only [Prod.mk.injEq] at h
      right
      refine ⟨stats, ?_⟩
      rw [h.2]
  · rcases hg : generate_embeddings_batch api (chunkTextDef newText) with e | vs <;>
      simp only [hg] at h
    · exact absurd (congrArg Prod.fst h) (by simp)
    · rcases hn : normalizeRows vs with e2 | rows <;> simp only [hn] at h
      · exact absurd (congrArg Prod.fst h) (by simp)
      · have hro : rows = vs ∧ vs ≠ [] := by
          unfold normalizeRows at hn
          by_cases hvs : vs = []
          · rw [if_pos hvs] at hn
            cases hn
          · rw [if_neg hvs] at hn
            exact ⟨(Except.ok.inj hn).symm, hvs⟩
        left
        refine ⟨entry, vs, rfl, rfl, hro.2, ?_⟩
        have hs' := (congrArg Prod.snd h).symm
        simp only at hs'
        rw [hs', hro.1]

/-- `C10`: assuming the embeddings client returns one vector per text,
every successful `create_index_for_job` or `update_index` leaves every
persisted pair with vector count equal to chunk count; and under that
invariant, a successful `search` returns exactly `min topK (index size)`
hits, every hit's vector index is a valid chunk-list position, and ranks
are consecutive `1, 2, ...`. -/
theorem C10_count_invariant_and_search (api : EmbedApi)
    (qe : String → Except String Vec) (store : Store)
    (hapi : EmbedApiOk api) (hinv : StoreInv store) :
    (∀ jobId text metadata stats s',
      create_index_for_job api store jobId text metadata = (.ok stats, s') →
      StoreInv s') ∧
    (∀ jobId newText b s',
      update_index api store jobId newText = (.ok b, s') → StoreInv s') ∧
    (∀ jobId query topK entry hits, store jobId = some entry →
      search qe store jobId query topK = .ok hits →
      hits.length = min topK entry.vectors.length ∧
      (∀ h ∈ hits, h.index < entry.meta.chunks.length) ∧
      (∀ j (hj : j < hits.length), (hits.get ⟨j, hj⟩).rank = j + 1)) := by
  have hcreate : ∀ jobId text metadata stats s',
      create_index_for_job api store jobId text metadata = (.ok stats, s') →
      StoreInv s' := by
    intro jobId text metadata stats s' h
    obtain ⟨vs, hg, _, hs'⟩ := create_ok_dissect h
    rw [hs']
    exact StoreInv_setStore hinv
      (by simpa using generate_embeddings_batch_length hapi hg)
  refine ⟨hcreate, ?_, ?_⟩
  · intro jobId newText b s' h
    rcases update_ok_dissect h with ⟨entry, vs, hst, hg, _, hs'⟩ | ⟨stats, hc⟩
    · rw [hs']
      refine StoreInv_setStore hinv ?_
      have hlv := generate_embeddings_batch_length hapi hg
      have hold := hinv jobId entry hst
      simp [List.length_append, hlv, hold]
    · exact hcreate _ _ _ _ _ hc
  · intro jobId query topK entry hits hst hsearch
    unfold search at hsearch
    rw [hst] at hsearch
    rcases hq : qe query with e | qv <;> simp only [hq] at hsearch
    · cases hsearch
    · simp only [show normalizeRows [qv] = .ok [qv] from rfl] at hsearch
      by_cases hk : min topK entry.vectors.length = 0
      · simp only [faissTop, if_pos hk] at hsearch
        cases hsearch
      · simp only [faissTop, if_neg hk] at hsearch
        cases hsearch
        have hn : entry.vectors.length = entry.meta.chunks.length :=
          hinv jobId entry hst
        have henum : ∀ x ∈ entry.vectors.enum, x.1 < entry.vectors.length :=
          List.forall_mem_enum.2 (fun i hi => hi)
        have hall : ∀ p ∈ (rankSort ((entry.vectors.enum).map
            (fun p => (dot ([qv].headD []) p.2, p.1)))).take
              (min topK entry.vectors.length),
            p.2 < entry.meta.chunks.length := by
          intro p hp
          have hp1 := mem_rankSort (List.mem_of_mem_take hp)
          rcases List.mem_map.1 hp1 with ⟨q, hq2, rfl⟩
          rw [← hn]
          exact henum q hq2
        obtain ⟨hlen, hidx, hrank⟩ := buildHits_spec entry.meta.chunks _ 0 hall
        refine ⟨?_, hidx, ?_⟩
        · rw [hlen]
          simp only [List.length_take, length_rankSort, List.length_map,
            List.enum_length]
          omega
        · intro j hj
          exact (hrank j hj).trans (by omega)

/-- The store for the `C10` witness: one job with a one-vector index. -/
def entry2 : FaissEntry :=
  { vectors := [[1]],
    meta := { jobId := "job2", chunks := ["a"], numChunks := 1, extra := none } }

def store2 : Store := fun j => if j = "job2" then some entry2 else none

/-- `C10` witness: searching the one-vector index with `topK = 3` returns
exactly `min 3 1 = 1` hit, with a valid chunk index and rank 1. -/
theorem C10_witness_singleton_search :
    ([({ rank := 1, chunk := "a", score := dot [1] [1], index := 0 } : Hit)]).length =
        min 3 entry2.vectors.length ∧
      (∀ h ∈ [({ rank := 1, chunk := "a", score := dot [1] [1], index := 0 } : Hit)],
        h.index < entry2.meta.chunks.length) ∧
      (∀ j (hj : j <
          ([({ rank := 1, chunk := "a", score := dot [1] [1], index := 0 } : Hit)]).length),
        (([({ rank := 1, chunk := "a", score := dot [1] [1], index := 0 } :
          Hit)]).get ⟨j, hj⟩).rank = j + 1) :=
  (C10_count_invariant_and_search apiOnes (fun _ => .ok [1]) store2
    (by
      intro ts vs h
      unfold apiOnes at h
      cases h
      simp)
    (by
      intro j e h
      unfold store2 at h
      split at h
      · cases h
        rfl
      · cases h)).2.2 "job2" "q" 3 entry2
    [{ rank := 1, chunk := "a", score := dot [1] [1], index := 0 }] rfl rfl

/-! ## Job lifecycle: `process_transcription_task` (workers/tasks.py)

The claim concerns only the sequence of `job.status` values the task
commits, so the embedding records exactly that sequence.  Each attempt of
the celery task first commits `PROCESSING` (line 76, unconditionally —
regardless of the job's current status) and then either commits
`COMPLETED` and returns (lines 220-236, no retry), or commits `FAILED`
(lines 244-247) and re-raises via `self.retry(...)` (line 250), which
re-invokes the whole task while the attempt budget
(`max_retries=3`, so 4 attempts in total) lasts. -/

inductive JStatus
  | queued
  | processing
  | completed
  | failed
  deriving DecidableEq

/-- Statuses committed across the attempts: `attemptsLeft` is the
remaining attempt budget, `outcomes` lists each attempt's fate
(`true` = the try-body runs to the `return`). -/
def runAttempts : ℕ → List Bool → List JStatus
  | 0, _ => []
  | _ + 1, [] => []
  | _ + 1, true :: _ => [.processing, .completed]
  | n + 1, false :: rest => .processing :: .failed :: runAttempts n rest

/-- Status history of one job: `QUEUED` at submission (upload handler),
then whatever `process_transcription_task` commits across its at most
`1 + max_retries = 4` attempts. -/
def statusHistory (outcomes : List Bool) : List JStatus :=
  .queued :: runAttempts 4 outcomes

/-- "No transition out of COMPLETED/FAILED": after an index holding a
terminal status, every later status equals it. -/
def TerminalOnce (t : List JStatus) : Prop :=
  ∀ i j (hi : i < t.length) (hj : j < t.length), i ≤ j →
    (t.get ⟨i, hi⟩ = .completed ∨ t.get ⟨i, hi⟩ = .failed) →
    t.get ⟨j, hj⟩ = t.get ⟨i, hi⟩

/-- `C2` counterexample: a job whose first attempt fails and whose retry
succeeds is marked FAILED and then leaves FAILED again for PROCESSING —
the retry path does transition out of FAILED. -/
theorem C2_counterexample_retry_exits_failed :
    statusHistory [false, true] =
      [.queued, .processing, .failed, .processing, .completed] ∧
      ¬ TerminalOnce (statusHistory [false, true]) := by
  refine ⟨rfl, ?_⟩
  intro H
  exact absurd (H 2 3 (by decide) (by decide) (by decide) (by decide)) (by decide)

theorem runAttempts_head (fuel : ℕ) (outs : List Bool)
    (h : 0 < (runAttempts fuel outs).length) :
    (runAttempts fuel outs).get ⟨0, h⟩ = .processing := by
  rcases fuel with _ | n
  · simp [runAttempts] at h
  · rcases outs with _ | ⟨b, rest⟩
    · simp [runAttempts] at h
    · cases b <;> rfl

theorem runAttempts_props (outcomes : List Bool) :
    ∀ fuel,
      (∀ i (hi : i < (runAttempts fuel outcomes).length),
        (runAttempts fuel outcomes).get ⟨i, hi⟩ = .completed →
          i + 1 = (runAttempts fuel outcomes).length) ∧
      (∀ i (hi : i < (runAttempts fuel outcomes).length)
          (hi2 : i + 1 < (runAttempts fuel outcomes).length),
        (runAttempts fuel outcomes).get ⟨i, hi⟩ = .failed →
          (runAttempts fuel outcomes).get ⟨i + 1, hi2⟩ = .processing) ∧
      (runAttempts fuel outcomes).count .processing ≤ fuel := by
  induction outcomes with
  | nil =>
    intro fuel
    rcases fuel with _ | n <;>
      exact ⟨fun i hi => by simp [runAttempts] at hi,
             fun i hi hi2 => by simp [runAttempts] at hi,
             by simp [runAttempts]⟩
  | cons b rest ih =>
    intro fuel
    rcases fuel with _ | n
    · exact ⟨fun i hi => by simp [runAttempts] at hi,
             fun i hi hi2 => by simp [runAttempts] at hi,
             by simp [runAttempts]⟩
    · cases b
      · obtain ⟨iha, ihb, ihc⟩ := ih n
        have hR : runAttempts (n + 1) (false :: rest) =
            .processing :: .failed :: runAttempts n rest := rfl
        rw [hR]
        refine ⟨?_, ?_, ?_⟩
        · intro i hi hc
          rcases i with _ | (_ | j)
          · simp [List.get] at hc
          · simp [List.get] at hc
          · simp only [List.get_cons_succ] at hc
            have hj : j < (runAttempts n rest).length := by
              simp only [List.length_cons] at hi
              omega
            have hres := iha j hj hc
            simp only [List.length_cons]
            omega
        · intro i hi hi2 hf
          rcases i with _ | (_ | j)
          · simp [List.get] at hf
          · simp only [List.get_cons_succ, List.get_cons_zero]
            apply runAttempts_head
          · simp only [List.get_cons_succ] at hf ⊢
            exact ihb j _ _ hf
        · simp [List.count_cons]
          omega
      · refine ⟨?_, ?_, ?_⟩
        · intro i hi hc
          rcases i with _ | (_ | j)
          · simp [runAttempts, List.get] at hc
          · rfl
          · simp [runAttempts] at hi
            omega
        · intro i hi hi2 hf
          rcases i with _ | (_ | j)
          · simp [runAttempts, List.get] at hf
          · simp [runAttempts, List.get] at hf
          · simp [runAttempts] at hi
            omega
        · simp [runAttempts]

/-- `C2` amended: COMPLETED is never left (it is always the last committed
status); FAILED is left only through the celery retry path, whose next
committed status is PROCESSING (so FAILED is terminal exactly when it
belongs to the final attempt); and there are at most `1 + max_retries = 4`
attempts. -/
theorem C2_terminal_statuses (outcomes : List Bool) :
    (∀ i (hi : i < (statusHistory outcomes).length),
      (statusHistory outcomes).get ⟨i, hi⟩ = .completed →
        i + 1 = (statusHistory outcomes).length) ∧
    (∀ i (hi : i < (statusHistory outcomes).length)
        (hi2 : i + 1 < (statusHistory outcomes).length),
      (statusHistory outcomes).get ⟨i, hi⟩ = .failed →
        (statusHistory outcomes).get ⟨i + 1, hi2⟩ = .processing) ∧
    (statusHistory outcomes).count .processing ≤ 4 := by
  obtain ⟨ha, hb, hc⟩ := runAttempts_props outcomes 4
  unfold statusHistory
  refine ⟨?_, ?_, ?_⟩
  · intro i hi hcomp
    rcases i with _ | j
    · simp [List.get] at hcomp
    · simp only [List.get_cons_succ] at hcomp
      have hj : j < (runAttempts 4 outcomes).length := by
        simp only [List.length_cons] at hi
        omega
      have := ha j hj hcomp
      simp only [List.length_cons]
      omega
  · intro i hi hi2 hf
    rcases i with _ | j
    · simp [List.get] at hf
    · simp only [List.get_cons_succ] at hf ⊢
      exact hb j _ _ hf
  · simp [List.count_cons]
    omega

/-- `C2` witness: in the failed-then-retried run, the status right after
the FAILED commit is PROCESSING, and COMPLETED is the final status. -/
theorem C2_witness_retry_reenters_processing :
    (statusHistory [false, true]).get ⟨2 + 1, by decide⟩ = JStatus.processing ∧
      (statusHistory [false, true]).get ⟨4, by decide⟩ = JStatus.completed :=
  ⟨(C2_terminal_statuses [false, true]).2.1 2 (by decide) (by decide) (by decide),
   by decide⟩

/-! ## Transcription poller retries (azure_speech.py lines 27-119)

`create_transcription_job` is decorated with
`@retry(stop=stop_after_attempt(3), wait=wait_exponential(multiplier=1,
min=4, max=10))`; `get_transcription_status` has **no** retry decorator —
it performs a single GET whose transport failure propagates.  The HTTP
transport is modeled as an oracle giving each attempt's outcome; the
backoff sleeps have no observable effect here and are not modeled.  On
exhaustion tenacity raises (a `RetryError` wrapping the last attempt's
exception, modeled as that underlying error). -/

inductive TransportErr
  | transport (msg : String)
  deriving DecidableEq

/-- The create POST's parsed JSON body (`self` URL and `status`). -/
structure CreateRaw where
  selfUrl : String
  status : Option String
  deriving DecidableEq

/-- The dict `create_transcription_job` returns (timestamps omitted). -/
structure CreateResp where
  jobId : String
  status : Option String
  deriving DecidableEq

/-- The status GET's parsed JSON body (fields the code reads). -/
structure StatusRaw where
  status : Option String
  error : Option String
  deriving DecidableEq

/-- The dict `get_transcription_status` returns (timestamps omitted). -/
structure StatusResp where
  jobId : String
  status : Option String
  error : Option String
  deriving DecidableEq

/-- Python `s.split("/")` (single-character separator) on a char list. -/
def splitSlash : List Char → List (List Char)
  | [] => [[]]
  | c :: rest =>
    if c = '/' then [] :: splitSlash rest
    else
      match splitSlash rest with
      | [] => [[c]]
      | seg :: segs => (c :: seg) :: segs

/-- `tenacity` with `stop_after_attempt`: run attempts `i, i+1, ...`;
return the first success; after the attempt budget is spent the last
error propagates. -/
def retryGo (call : ℕ → Except TransportErr α) : ℕ → ℕ → Except TransportErr α
  | 0, _ => .error (.transport "stop_after_attempt(0)")
  | 1, i => call i
  | n + 2, i =>
    match call i with
    | .ok a => .ok a
    | .error _ => retryGo call (n + 1) (i + 1)

def tenacityRetry (maxAttempts : ℕ) (call : ℕ → Except TransportErr α) :
    Except TransportErr α :=
  retryGo call maxAttempts 0

/-- The body after a successful POST:
`job_id = job_data.get("self", "").split("/")[-1]`. -/
def createBody (raw : CreateRaw) : CreateResp :=
  { jobId := ⟨(splitSlash raw.selfUrl.data).getLastD []⟩, status := raw.status }

/-- `AzureSpeechService.create_transcription_job`: the whole body runs
under `@retry(stop=stop_after_attempt(3), ...)`; `call i` is attempt
`i`'s transport outcome. -/
def create_transcription_job (call : ℕ → Except TransportErr CreateRaw) :
    Except TransportErr CreateResp :=
  (tenacityRetry 3 call).map createBody

def statusBody (jobId : String) (raw : StatusRaw) : StatusResp :=
  { jobId := jobId, status := raw.status, error := raw.error }

/-- `AzureSpeechService.get_transcription_status`: one GET, no retry
decorator; `call` is its single transport outcome. -/
def get_transcription_status (jobId : String)
    (call : Except TransportErr StatusRaw) : Except TransportErr StatusResp :=
  call.map (statusBody jobId)

/-- What the claim asserts the status fetch does (spec side, for
comparison): retried up to 3 attempts exactly like the create call. -/
def statusFetchRetried (jobId : String)
    (call : ℕ → Except TransportErr StatusRaw) : Except TransportErr StatusResp :=
  (tenacityRetry 3 call).map (statusBody jobId)

/-- A status endpoint that fails transiently once, then reports Running. -/
def flakyStatus : ℕ → Except TransportErr StatusRaw
  | 0 => .error (.transport "connection reset")
  | _ + 1 => .ok { status := some "Running", error := none }

/-- `C4` counterexample: `get_transcription_status` is *not* retried — on
a status endpoint whose first attempt fails transiently and whose retry
would succeed, the code propagates the transport error where the claimed
retried fetch would return the Running payload. -/
theorem C4_counterexample_status_fetch_not_retried :
    (¬ ∀ (call : ℕ → Except TransportErr StatusRaw) (jobId : String),
        get_transcription_status jobId (call 0) = statusFetchRetried jobId call) ∧
      get_transcription_status "j" (flakyStatus 0) =
        .error (.transport "connection reset") ∧
      statusFetchRetried "j" flakyStatus =
        .ok { jobId := "j", status := some "Running", error := none } := by
  refine ⟨?_, rfl, rfl⟩
  intro H
  have h := H flakyStatus "j"
  rw [show get_transcription_status "j" (flakyStatus 0) =
        .error (.transport "connection reset") from rfl,
      show statusFetchRetried "j" flakyStatus =
        .ok { jobId := "j", status := some "Running", error := none } from rfl] at h
  cases h

/-- `C4` amended: the initial create call is retried, up to 3 attempts in
total, with exponential backoff on transient transport failure (first
success wins, a payload is returned as-is even if it reports a remote
`Failed` status — no retry on definitive outcomes), and after 3 transport
failures the last error propagates; a status fetch during polling is
issued exactly once — its transport failure propagates immediately and a
received payload is returned as-is. -/
theorem C4_create_retried_status_single (call : ℕ → Except TransportErr CreateRaw)
    (scall : Except TransportErr StatusRaw) (jobId : String) :
    (∀ r, call 0 = .ok r → create_transcription_job call = .ok (createBody r)) ∧
    (∀ e0 r, call 0 = .error e0 → call 1 = .ok r →
      create_transcription_job call = .ok (createBody r)) ∧
    (∀ e0 e1 r, call 0 = .error e0 → call 1 = .error e1 → call 2 = .ok r →
      create_transcription_job call = .ok (createBody r)) ∧
    (∀ e0 e1 e2, call 0 = .error e0 → call 1 = .error e1 → call 2 = .error e2 →
      create_transcription_job call = .error e2) ∧
    (∀ e, scall = .error e → get_transcription_status jobId scall = .error e) ∧
    (∀ raw, scall = .ok raw →
      get_transcription_status jobId scall = .ok (statusBody jobId raw)) := by
  refine ⟨?_, ?_, ?_, ?_, ?_, ?_⟩
  · intro r h0
    unfold create_transcription_job tenacityRetry retryGo
    rw [h0]
    rfl
  · intro e0 r h0 h1
    unfold create_transcription_job tenacityRetry retryGo
    rw [h0]
    unfold retryGo
    rw [h1]
    rfl
  · intro e0 e1 r h0 h1 h2
    unfold create_transcription_job tenacityRetry retryGo
    rw [h0]
    unfold retryGo
    rw [h1]
    unfold retryGo
    rw [h2]
    rfl
  · intro e0 e1 e2 h0 h1 h2
    unfold create_transcription_job tenacityRetry retryGo
    rw [h0]
    unfold retryGo
    rw [h1]
    unfold retryGo
    rw [h2]
    rfl
  · intro e h
    unfold get_transcription_status
    rw [h]
    rfl
  · intro raw h
    unfold get_transcription_status
    rw [h]
    rfl

/-- A create endpoint that fails transiently once, then succeeds. -/
def flakyCreate : ℕ → Except TransportErr CreateRaw
  | 0 => .error (.transport "timeout")
  | _ + 1 =>
    .ok { selfUrl := "https://r.example/speechtotext/v3.1/transcriptions/abc",
          status := some "NotStarted" }

/-- `C4` witness: the flaky create endpoint is retried to success, and the
extracted job id is the last URL segment. -/
theorem C4_witness_create_retry_succeeds :
    create_transcription_job flakyCreate =
      .ok { jobId := "abc", status := some "NotStarted" } :=
  (C4_create_retried_status_single flakyCreate
    (.ok { status := some "Running", error := none }) "j").2.1
    (.transport "timeout")
    { selfUrl := "https://r.example/speechtotext/v3.1/transcriptions/abc",
      status := some "NotStarted" } rfl rfl

end Audia
